import Mathlib

/-!
# Category grouping for commands and flags (`category.go`)

A shallow embedding of the command category registry (`commandCategories`,
`commandCategory`) and of the flag category registry (`defaultFlagCategories`,
`defaultVisibleFlagCategory`), followed by the properties of the two
registries.

Conventions of the embedding.

* A Go `string` is a Lean `String`.
* A slice is the list of its elements. Where the source tests a slice against
  `nil` (the `commands` field of `commandCategory`) the slice is an
  `Option (List _)` with `none` for the `nil` slice.
* A method with a pointer receiver that writes through the receiver returns the
  updated receiver (state passing).
* A run-time panic (a failed unchecked type assertion) is the result `none`.
* A `*Command` refers to an existing command; a `*commandCategory` in the
  registry refers to an existing category (the registry only stores the
  addresses of composite literals).
-/

namespace Cli

/-! ## Definitions -/

/-- Modelled from the spec: the declaration of `Command` is not part of
`category.go`. A command is an external value whose only attribute read here is
the boolean `Hidden`; `ptr` stands for the identity of the `*Command`. -/
structure Command where
  ptr : Nat
  Hidden : Bool
deriving DecidableEq, Repr

/-- Modelled from the spec: the declarations of `Flag`, `VisibleFlag` and
`CategorizableFlag` are not part of `category.go`. A flag is an external value
that may or may not have each of two methods: `visible = some b` when its
dynamic type has `IsVisible()`, which returns `b`, and `category = some c` when
it has `GetCategory()`, which returns `c`; `ptr` stands for the identity of the
value. The interface `VisibleFlag` asks for `IsVisible()`; the interface
`CategorizableFlag` includes `VisibleFlag` and asks for `GetCategory()` as well,
so that a flag lacking either method is not a `CategorizableFlag`. -/
structure Flag where
  ptr : Nat
  visible : Option Bool
  category : Option String
deriving DecidableEq, Repr

/-- The interface value obtained from a successful `fl.(VisibleFlag)`: the flag
itself together with what its `IsVisible()` reports. -/
structure VisibleFlag where
  flag : Flag
  IsVisible : Bool
deriving DecidableEq, Repr

/-- The unchecked assertion `fl.(VisibleFlag)`: `none` is the panic raised when
the dynamic type of `fl` does not implement `VisibleFlag`. -/
def Flag.assertVisibleFlag (fl : Flag) : Option VisibleFlag :=
  match fl.visible with
  | some b => some { flag := fl, IsVisible := b }
  | none => none

/-- The interface value obtained from a successful `fl.(CategorizableFlag)`: the
flag itself together with what its `GetCategory()` reports. -/
structure CategorizableFlag where
  flag : Flag
  GetCategory : String
deriving DecidableEq, Repr

/-- The checked assertion `cf, ok := fl.(CategorizableFlag)`: `some cf` when
`ok` is true, that is when the dynamic type of `fl` has both methods of the
interface, `none` when `ok` is false. -/
def Flag.asCategorizableFlag (fl : Flag) : Option CategorizableFlag :=
  match fl.visible, fl.category with
  | some _, some c => some { flag := fl, GetCategory := c }
  | _, _ => none

/-- Position by position comparison of two sequences of code units. -/
def lexLessUnits : List Nat → List Nat → Bool
  | [], [] => false
  | [], _ :: _ => true
  | _ :: _, [] => false
  | a :: as, b :: bs =>
    if a < b then true else if b < a then false else lexLessUnits as bs

/-- The UTF-8 code units of a string, as numbers. -/
def codeUnits (s : String) : List Nat :=
  (s.toList.flatMap String.utf8EncodeChar).map UInt8.toNat

/-- Modelled from the spec: `lexicographicLess` is not part of `category.go`.
The spec fixes it as the comparison of strings position by position by
code-unit value. -/
def lexicographicLess (a b : String) : Bool :=
  lexLessUnits (codeUnits a) (codeUnits b)

/-! ### Command categories -/

/-- The struct `commandCategory`; `commands = none` is the `nil` slice. -/
structure commandCategory where
  name : String
  commands : Option (List Command)
deriving DecidableEq, Repr

/-- The elements of a possibly `nil` slice. -/
def sliceElems {α : Type} : Option (List α) → List α
  | some l => l
  | none => []

/-- Go's `append(s, x)` on a possibly `nil` slice. -/
def sliceAppend {α : Type} (s : Option (List α)) (x : α) : Option (List α) :=
  some (sliceElems s ++ [x])

/-- The method `(*commandCategory).Name`. -/
def commandCategory.Name (c : commandCategory) : String :=
  c.name

/-- The method `(*commandCategory).VisibleCommands`: the receiver after the call
(an absent command slice is replaced by an empty one) and the returned slice,
built by the loop that appends every command whose `Hidden` is false. -/
def commandCategory.VisibleCommands (c : commandCategory) :
    commandCategory × List Command :=
  let c1 : commandCategory :=
    match c.commands with
    | none => { c with commands := some [] }
    | some _ => c
  let ret := (sliceElems c1.commands).foldl
    (fun ret command => if !command.Hidden then ret ++ [command] else ret) []
  (c1, ret)

/-- The type `commandCategories`: the slice of category pointers, with the
pointed-to categories in place. -/
abbrev commandCategories := List commandCategory

/-- The constructor `newCommandCategories`. -/
def newCommandCategories : commandCategories := []

/-- The method `(*commandCategories).Len`. -/
def commandCategories.Len (c : commandCategories) : Nat :=
  c.length

/-- The method `(*commandCategories).Less`; `none` is the index panic. -/
def commandCategories.Less (c : commandCategories) (i j : Nat) : Option Bool :=
  match c.get? i, c.get? j with
  | some ci, some cj => some (lexicographicLess ci.Name cj.Name)
  | _, _ => none

/-- The method `(*commandCategories).Swap`; `none` is the index panic. -/
def commandCategories.Swap (c : commandCategories) (i j : Nat) :
    Option commandCategories :=
  match c.get? i, c.get? j with
  | some ci, some cj => some ((c.set i cj).set j ci)
  | _, _ => none

/-- The method `(*commandCategories).AddCommand`: the loop looks for the first
category with the given name and appends the command to it; when the loop ends
without a match a new category holding just this command is appended. -/
def commandCategories.AddCommand :
    commandCategories → String → Command → commandCategories
  | [], category, command =>
    [{ name := category, commands := some [command] }]
  | commandCategory :: rest, category, command =>
    if commandCategory.name = category then
      { commandCategory with
        commands := sliceAppend commandCategory.commands command } :: rest
    else
      commandCategory :: commandCategories.AddCommand rest category command

/-- The method `(*commandCategories).Categories`: a new slice of the same
length whose `i`-th element is the `i`-th category. -/
def commandCategories.Categories (c : commandCategories) : List commandCategory :=
  c.map (fun cat => cat)

/-- A sequence of `AddCommand` calls applied in order to a registry. -/
def addCommands (c : commandCategories) (calls : List (String × Command)) :
    commandCategories :=
  calls.foldl (fun acc p => acc.AddCommand p.1 p.2) c

/-- The names of a sequence of categories are in non-decreasing order under
`lexicographicLess`: no later name is less than an earlier one. -/
def namesNonDecreasing (cats : List commandCategory) : Prop :=
  cats.Pairwise (fun a b => lexicographicLess b.Name a.Name = false)

/-- The (name, command) pairs held by a sequence of categories, category by
category. -/
def categoryPairs (cats : List commandCategory) : List (String × Command) :=
  cats.flatMap (fun cat => (sliceElems cat.commands).map (fun cmd => (cat.Name, cmd)))

/-- The distinct elements of a list in order of first occurrence. -/
def firstOccurrences : List String → List String
  | [] => []
  | x :: xs => x :: (firstOccurrences xs).filter (fun y => decide (y ≠ x))

/-- The commands passed under the name `n` in a sequence of `AddCommand` calls,
in call order and with multiplicity. -/
def commandsUnder (calls : List (String × Command)) (n : String) : List Command :=
  (calls.filter (fun p => decide (p.1 = n))).map Prod.snd

/-- The grouping of a call sequence by name: one category per distinct name, in
order of first occurrence, holding the commands passed under that name. -/
def groupedCommands (calls : List (String × Command)) : List commandCategory :=
  (firstOccurrences (calls.map Prod.fst)).map
    (fun n => { name := n, commands := some (commandsUnder calls n) })

/-- The calls `AddCommand("z", _)`, `AddCommand("a", _)`, `AddCommand("m", _)`. -/
def callsZAM : List (String × Command) :=
  [("z", { ptr := 1, Hidden := false }), ("a", { ptr := 2, Hidden := false }),
   ("m", { ptr := 3, Hidden := false })]

/-! ### Flag categories -/

/-- The struct `defaultVisibleFlagCategory`. -/
structure defaultVisibleFlagCategory where
  name : String
  flags : List Flag
deriving DecidableEq, Repr

/-- The method `(*defaultVisibleFlagCategory).Name`. -/
def defaultVisibleFlagCategory.Name (fc : defaultVisibleFlagCategory) : String :=
  fc.name

/-- One iteration of the loop of `Flags`: `ret[i] = fl.(VisibleFlag)`, a panic
(`none`) when the unchecked assertion fails or when an earlier iteration has
panicked. -/
def flagsLoopBody (ret : Option (List VisibleFlag)) (fl : Flag) :
    Option (List VisibleFlag) :=
  match ret with
  | none => none
  | some vs =>
    match fl.assertVisibleFlag with
    | some v => some (vs ++ [v])
    | none => none

/-- The method `(*defaultVisibleFlagCategory).Flags`: a slice of the same length
as the stored flags whose `i`-th element is `fl.(VisibleFlag)` of the `i`-th
flag; the loop panics (`none`) at the first flag on which the unchecked
assertion fails. -/
def defaultVisibleFlagCategory.Flags (fc : defaultVisibleFlagCategory) :
    Option (List VisibleFlag) :=
  fc.flags.foldl flagsLoopBody (some [])

/-- The struct `defaultFlagCategories`: the ordered name list and the map from
names to categories (`m name = none` when `name` is not a key). -/
structure defaultFlagCategories where
  names : List String
  m : String → Option defaultVisibleFlagCategory

/-- The constructor `newFlagCategories`: the name list holds the empty name and
the map binds it to the zero category. -/
def newFlagCategories : defaultFlagCategories where
  names := [""]
  m := fun k => if k = "" then some { name := "", flags := [] } else none

/-- The map write `m[k] = v`. -/
def mapSet (m : String → Option defaultVisibleFlagCategory) (k : String)
    (v : defaultVisibleFlagCategory) : String → Option defaultVisibleFlagCategory :=
  fun k1 => if k1 = k then some v else m k1

/-- The method `(*defaultFlagCategories).AddFlag`. When `category` is not a key
of the map, a new category of that name is bound to it and the name is appended
to the name list; then the flag is appended to the flags of the category bound
to `category` (which exists at that point in both cases). -/
def defaultFlagCategories.AddFlag (f : defaultFlagCategories) (category : String)
    (fl : Flag) : defaultFlagCategories :=
  match f.m category with
  | none =>
    { names := f.names ++ [category]
      m := mapSet f.m category { name := category, flags := [] ++ [fl] } }
  | some cat =>
    { names := f.names
      m := mapSet f.m category { cat with flags := cat.flags ++ [fl] } }

/-- The method `(*defaultFlagCategories).VisibleCategories`: `none` is the `nil`
result returned when the name list has length 1; otherwise the slice holds, for
each name of the name list in order, the map entry of that name (`none` for an
absent entry, Go's nil pointer). -/
def defaultFlagCategories.VisibleCategories (f : defaultFlagCategories) :
    Option (List (Option defaultVisibleFlagCategory)) :=
  if f.names.length = 1 then none
  else some (f.names.map (fun name => f.m name))

/-- One iteration of the loop of `newFlagCategoriesFromFlags`: a flag that
passes the checked assertion `fl.(CategorizableFlag)` undergoes the unchecked
assertion `fl.(VisibleFlag)` (`none`, a panic, were it to fail) and `cf` is
added under `cf.GetCategory()` when `IsVisible()` is true; every other flag is
passed over. -/
def fromFlagsLoopBody (acc : Option defaultFlagCategories) (fl : Flag) :
    Option defaultFlagCategories :=
  match acc with
  | none => none
  | some fc =>
    match fl.asCategorizableFlag with
    | some cf =>
      match fl.assertVisibleFlag with
      | none => none
      | some v => if v.IsVisible then some (fc.AddFlag cf.GetCategory cf.flag) else some fc
    | none => some fc

/-- The constructor `newFlagCategoriesFromFlags`: the loop over the flags,
started from `newFlagCategories`; `none` when the loop panics. -/
def newFlagCategoriesFromFlags (fs : List Flag) : Option defaultFlagCategories :=
  fs.foldl fromFlagsLoopBody (some newFlagCategories)

/-- A sequence of `AddFlag` calls applied in order to a registry. -/
def addFlags (f : defaultFlagCategories) (calls : List (String × Flag)) :
    defaultFlagCategories :=
  calls.foldl (fun acc p => acc.AddFlag p.1 p.2) f

/-- A flag is both Categorizable and Visible: it has the category capability
and the visibility capability, and its `IsVisible()` is true. -/
def Flag.categorizableAndVisible (fl : Flag) : Bool :=
  fl.category.isSome && (fl.visible == some true)

/-- The spec's description of bulk construction: an empty registry, then
`AddFlag(f.GetCategory(), f)` for each flag that is both Categorizable and
Visible, in sequence order. -/
def fromFlagsSpec (fs : List Flag) : defaultFlagCategories :=
  addFlags newFlagCategories
    ((fs.filter Flag.categorizableAndVisible).map
      (fun fl => (fl.category.getD "", fl)))

/-- The flags passed under the name `n` in a sequence of `AddFlag` calls, in
call order and with multiplicity. -/
def flagsUnder (calls : List (String × Flag)) (n : String) : List Flag :=
  (calls.filter (fun p => decide (p.1 = n))).map Prod.snd

/-- The grouping of an `AddFlag` call sequence by name: the name list is the
empty name followed by the other distinct names in order of first occurrence,
and each of these names is bound to the flags passed under it. -/
def groupedFlags (calls : List (String × Flag)) : defaultFlagCategories where
  names := firstOccurrences ("" :: calls.map Prod.fst)
  m := fun k =>
    if k ∈ "" :: calls.map Prod.fst then some { name := k, flags := flagsUnder calls k }
    else none

/-- The calls `AddCommand("build", cmdA)`, `AddCommand("test", cmdB)`,
`AddCommand("build", cmdC)`. -/
def callsBuildTestBuild : List (String × Command) :=
  [("build", { ptr := 1, Hidden := false }), ("test", { ptr := 2, Hidden := false }),
   ("build", { ptr := 3, Hidden := true })]

/-- The calls `AddFlag("net", f1)`, `AddFlag("io", f2)`, `AddFlag("net", f3)`. -/
def callsNetIoNet : List (String × Flag) :=
  [("net", { ptr := 1, visible := some true, category := some "net" }),
   ("io", { ptr := 2, visible := some true, category := some "io" }),
   ("net", { ptr := 3, visible := some true, category := some "net" })]

/-- A visible flag of category "a", a hidden flag of category "b", a visible
flag without category, and a second visible flag of category "a". -/
def flagsMixed : List Flag :=
  [{ ptr := 1, visible := some true, category := some "a" },
   { ptr := 2, visible := some false, category := some "b" },
   { ptr := 3, visible := some true, category := none },
   { ptr := 4, visible := some true, category := some "a" }]

/-- A visible flag of category "b" after a flag that reports the category "a"
but has no `VisibleFlag` capability. -/
def flagsCategorizableOnlyThenVisible : List Flag :=
  [{ ptr := 1, visible := none, category := some "a" },
   { ptr := 2, visible := some true, category := some "b" }]

/-- The category "net" after the calls `callsNetIoNet`. -/
def categoryNet : defaultVisibleFlagCategory where
  name := "net"
  flags := [{ ptr := 1, visible := some true, category := some "net" },
    { ptr := 3, visible := some true, category := some "net" }]

/-- The category "a" built from `flagsMixed`. -/
def categoryA : defaultVisibleFlagCategory where
  name := "a"
  flags := [{ ptr := 1, visible := some true, category := some "a" },
    { ptr := 4, visible := some true, category := some "a" }]

/-- The registry after `VisibleCommands()` has been called through the `i`-th
category pointer returned by `Categories()` (these are the registry's own
pointers, so the write of `VisibleCommands` lands in the registry); no change
when `i` is out of range. -/
def visibleCommandsAt : commandCategories → Nat → commandCategories
  | [], _ => []
  | c :: rest, 0 => c.VisibleCommands.1 :: rest
  | c :: rest, i + 1 => c :: visibleCommandsAt rest i

/-- Go's order `<` on strings: byte by byte. -/
def stringLess (a b : String) : Bool :=
  lexLessUnits (codeUnits a) (codeUnits b)

/-- The names of a sequence of flag categories are sorted: no later name is less
than an earlier one in string order (a nil entry counts with the empty name). -/
def flagNamesNonDecreasing (cats : List (Option defaultVisibleFlagCategory)) : Prop :=
  (cats.map (fun c => (c.map defaultVisibleFlagCategory.Name).getD "")).Pairwise
    (fun a b => stringLess b a = false)

/-- The calls `AddFlag("z", f1)`, `AddFlag("a", f2)`. -/
def callsZA : List (String × Flag) :=
  [("z", { ptr := 1, visible := some true, category := some "z" }),
   ("a", { ptr := 2, visible := some true, category := some "a" })]

/-- A visible flag of category "a", a visible flag of the empty category and a
hidden flag of category "a". -/
def flagsWithEmptyCategory : List Flag :=
  [{ ptr := 1, visible := some true, category := some "a" },
   { ptr := 2, visible := some true, category := some "" },
   { ptr := 3, visible := some false, category := some "a" }]

/-- The category "" built from `flagsWithEmptyCategory`. -/
def categoryEmptyName : defaultVisibleFlagCategory where
  name := ""
  flags := [{ ptr := 2, visible := some true, category := some "" }]

/-! ## Properties of the command registry -/

theorem mem_firstOccurrences (l : List String) (y : String) :
    y ∈ firstOccurrences l ↔ y ∈ l := by
  induction l with
  | nil => simp [firstOccurrences]
  | cons x xs ih =>
    simp only [firstOccurrences, List.mem_cons, List.mem_filter, ih, decide_eq_true_eq]
    by_cases h : y = x <;> simp [h]

theorem nodup_firstOccurrences (l : List String) : (firstOccurrences l).Nodup := by
  induction l with
  | nil => simp [firstOccurrences]
  | cons x xs ih =>
    simp only [firstOccurrences, List.nodup_cons, List.mem_filter, decide_eq_true_eq]
    exact ⟨fun h => h.2 rfl, ih.filter _⟩

theorem firstOccurrences_append_singleton (l : List String) (n : String) :
    firstOccurrences (l ++ [n]) =
      if n ∈ l then firstOccurrences l else firstOccurrences l ++ [n] := by
  induction l with
  | nil => simp [firstOccurrences]
  | cons x xs ih =>
    have hcons : firstOccurrences (x :: xs ++ [n]) =
        x :: (firstOccurrences (xs ++ [n])).filter (fun y => decide (y ≠ x)) := rfl
    rw [hcons, ih]
    simp only [firstOccurrences, List.mem_cons]
    by_cases hx : n = x
    · subst hx
      by_cases hm : n ∈ xs <;> simp [hm, List.filter_append]
    · by_cases hm : n ∈ xs <;> simp [hm, hx, List.filter_append]

theorem length_firstOccurrences (l : List String) :
    (firstOccurrences l).length = l.toFinset.card := by
  rw [← List.toFinset_card_of_nodup (nodup_firstOccurrences l)]
  congr 1
  ext y
  simp [mem_firstOccurrences]

theorem addCommands_append (c : commandCategories) (calls : List (String × Command))
    (p : String × Command) :
    addCommands c (calls ++ [p]) = (addCommands c calls).AddCommand p.1 p.2 := by
  simp [addCommands, List.foldl_append]

theorem commandsUnder_append (calls : List (String × Command)) (p : String × Command)
    (m : String) :
    commandsUnder (calls ++ [p]) m =
      commandsUnder calls m ++ (if p.1 = m then [p.2] else []) := by
  by_cases h : p.1 = m <;> simp [commandsUnder, List.filter_append, List.filter_cons, h]

theorem commandsUnder_eq_nil (calls : List (String × Command)) (n : String)
    (h : n ∉ calls.map Prod.fst) : commandsUnder calls n = [] := by
  simp only [commandsUnder, List.map_eq_nil_iff, List.filter_eq_nil_iff, decide_eq_true_eq]
  intro p hp hpn
  exact h (List.mem_map.mpr ⟨p, hp, hpn⟩)

theorem addCommand_map_of_not_mem (l : List String) (g : String → List Command)
    (n : String) (cmd : Command) (hn : n ∉ l) :
    commandCategories.AddCommand
        (l.map (fun m => ({ name := m, commands := some (g m) } : commandCategory))) n cmd =
      l.map (fun m => ({ name := m, commands := some (g m) } : commandCategory)) ++
        [{ name := n, commands := some [cmd] }] := by
  induction l with
  | nil => simp [commandCategories.AddCommand]
  | cons x xs ih =>
    have hx : x ≠ n := fun h => hn (by simp [h])
    have hxs : n ∉ xs := fun h => hn (by simp [h])
    simp [commandCategories.AddCommand, hx, ih hxs]

theorem addCommand_map_of_mem (l : List String) (g : String → List Command)
    (n : String) (cmd : Command) (hn : n ∈ l) (hl : l.Nodup) :
    commandCategories.AddCommand
        (l.map (fun m => ({ name := m, commands := some (g m) } : commandCategory))) n cmd =
      l.map (fun m =>
        ({ name := m, commands := some (g m ++ if n = m then [cmd] else []) } :
          commandCategory)) := by
  induction l with
  | nil => simp at hn
  | cons x xs ih =>
    rw [List.nodup_cons] at hl
    by_cases hx : x = n
    · subst hx
      have hrest : ∀ m ∈ xs, (({ name := m, commands := some (g m) } : commandCategory)) =
          { name := m, commands := some (g m ++ if x = m then [cmd] else []) } := by
        intro m hm
        have : x ≠ m := fun h => hl.1 (h ▸ hm)
        simp [this]
      simp only [List.map_cons, commandCategories.AddCommand, if_true, sliceAppend, sliceElems]
      rw [List.map_congr_left hrest]
    · have hxs : n ∈ xs := by
        rcases List.mem_cons.mp hn with h | h
        · exact absurd h.symm hx
        · exact h
      have hx2 : ¬ n = x := fun h => hx h.symm
      simp [commandCategories.AddCommand, hx, hx2, ih hxs hl.2]

theorem addCommand_groupedCommands (calls : List (String × Command)) (p : String × Command) :
    commandCategories.AddCommand (groupedCommands calls) p.1 p.2 =
      groupedCommands (calls ++ [p]) := by
  unfold groupedCommands
  rw [List.map_append, List.map_singleton, firstOccurrences_append_singleton]
  by_cases hn : p.1 ∈ calls.map Prod.fst
  · rw [if_pos hn, addCommand_map_of_mem _ _ _ _ ((mem_firstOccurrences _ _).mpr hn)
      (nodup_firstOccurrences _)]
    apply List.map_congr_left
    intro m _
    rw [commandsUnder_append]
  · rw [if_neg hn, addCommand_map_of_not_mem _ _ _ _
      (fun h => hn ((mem_firstOccurrences _ _).mp h)), List.map_append, List.map_singleton]
    congr 1
    · apply List.map_congr_left
      intro m hm
      have hmn : ¬ p.1 = m := fun h => hn (h ▸ (mem_firstOccurrences _ _).mp hm)
      rw [commandsUnder_append, if_neg hmn, List.append_nil]
    · rw [commandsUnder_append, commandsUnder_eq_nil _ _ hn]
      simp

/-- The registry reached from `newCommandCategories` by a call sequence is the
grouping of the calls by name, in order of first occurrence. -/
theorem addCommands_eq_groupedCommands (calls : List (String × Command)) :
    addCommands newCommandCategories calls = groupedCommands calls := by
  induction calls using List.reverseRecOn with
  | nil => rfl
  | append_singleton calls p ih =>
    rw [addCommands_append, ih, addCommand_groupedCommands]

theorem categories_eq (c : commandCategories) : c.Categories = c := by
  simp [commandCategories.Categories]

theorem categoryPairs_cons (cat : commandCategory) (rest : List commandCategory) :
    categoryPairs (cat :: rest) =
      (sliceElems cat.commands).map (fun cmd => (cat.Name, cmd)) ++ categoryPairs rest := by
  simp [categoryPairs]

theorem categoryPairs_addCommand_perm (c : commandCategories) (n : String) (cmd : Command) :
    (categoryPairs (c.AddCommand n cmd)).Perm (categoryPairs c ++ [(n, cmd)]) := by
  induction c with
  | nil => simp [commandCategories.AddCommand, categoryPairs, sliceElems, commandCategory.Name]
  | cons cat rest ih =>
    by_cases h : cat.name = n
    · simp only [commandCategories.AddCommand, h, if_true, categoryPairs_cons, sliceAppend,
        sliceElems, commandCategory.Name, List.map_append, List.map_singleton,
        List.append_assoc]
      exact List.Perm.append_left _ List.perm_append_comm
    · simp only [commandCategories.AddCommand, h, if_false, categoryPairs_cons,
        List.append_assoc]
      exact List.Perm.append_left _ ih

theorem categoryPairs_addCommands_perm (calls : List (String × Command)) :
    ∀ c : commandCategories,
      (categoryPairs (addCommands c calls)).Perm (categoryPairs c ++ calls) := by
  induction calls with
  | nil => intro c; simp [addCommands]
  | cons p rest ih =>
    intro c
    have h1 := ih (c.AddCommand p.1 p.2)
    have h2 := (categoryPairs_addCommand_perm c p.1 p.2).append_right rest
    simpa [addCommands] using h1.trans h2

theorem visibleLoop_eq (l : List Command) (acc : List Command) :
    l.foldl (fun ret command => if !command.Hidden then ret ++ [command] else ret) acc =
      acc ++ l.filter (fun cmd => !cmd.Hidden) := by
  induction l generalizing acc with
  | nil => simp
  | cons x xs ih =>
    rw [List.foldl_cons, ih]
    cases hx : x.Hidden <;> simp [List.filter_cons, hx]

/-! ### The claims on the command registry -/

/-- C1, evaluated on the code: after `AddCommand` under "z", "a", "m" in that
order, `Categories()` returns the names in insertion order "z", "a", "m", and
since "a" is less than "z" under `lexicographicLess` the returned names are not
in non-decreasing order. -/
theorem categories_insertion_order_not_sorted :
    (addCommands newCommandCategories callsZAM).Categories.map commandCategory.Name =
        ["z", "a", "m"] ∧
      lexicographicLess "a" "z" = true ∧
      ¬ namesNonDecreasing (addCommands newCommandCategories callsZAM).Categories := by
  refine ⟨by decide, by decide, ?_⟩
  unfold namesNonDecreasing
  decide

/-- C2: after any sequence of `AddCommand` calls on a fresh registry, every name
passed has a category in `Categories()`, every returned category holds exactly
the commands passed under its name, in call order and with multiplicity, and the
(name, command) pairs of the returned categories are a permutation of the pairs
passed. -/
theorem categories_hold_commands_by_name (calls : List (String × Command)) :
    (∀ n ∈ calls.map Prod.fst,
        ∃ cat ∈ (addCommands newCommandCategories calls).Categories, cat.Name = n) ∧
      (∀ cat ∈ (addCommands newCommandCategories calls).Categories,
        cat.commands = some (commandsUnder calls cat.Name)) ∧
      (categoryPairs (addCommands newCommandCategories calls).Categories).Perm calls := by
  refine ⟨?_, ?_, ?_⟩
  · intro n hn
    rw [categories_eq, addCommands_eq_groupedCommands]
    exact ⟨{ name := n, commands := some (commandsUnder calls n) },
      List.mem_map.mpr ⟨n, (mem_firstOccurrences _ _).mpr hn, rfl⟩, rfl⟩
  · intro cat hcat
    rw [categories_eq, addCommands_eq_groupedCommands] at hcat
    obtain ⟨n, _, rfl⟩ := List.mem_map.mp hcat
    rfl
  · rw [categories_eq]
    simpa [newCommandCategories, categoryPairs] using
      categoryPairs_addCommands_perm calls newCommandCategories

/-- After `AddCommand("build", cmdA)`, `AddCommand("test", cmdB)`,
`AddCommand("build", cmdC)` the categories are "build" with `cmdA`, `cmdC` and
"test" with `cmdB`. -/
theorem categories_buildTestBuild :
    (addCommands newCommandCategories callsBuildTestBuild).Categories =
      [{ name := "build",
         commands := some [{ ptr := 1, Hidden := false }, { ptr := 3, Hidden := true }] },
       { name := "test", commands := some [{ ptr := 2, Hidden := false }] }] := by
  decide

/-- C3: after any sequence of `AddCommand` calls on a fresh registry, the names
of the categories returned by `Categories()` are pairwise distinct, they are
exactly the names passed, the number of categories is the number of distinct
names passed, and it is 0 when no call was made. -/
theorem categories_names_distinct (calls : List (String × Command)) :
    ((addCommands newCommandCategories calls).Categories.map commandCategory.Name).Nodup ∧
      (∀ n, n ∈ (addCommands newCommandCategories calls).Categories.map commandCategory.Name
        ↔ n ∈ calls.map Prod.fst) ∧
      (addCommands newCommandCategories calls).Categories.length =
        (calls.map Prod.fst).toFinset.card ∧
      (addCommands newCommandCategories []).Categories.length = 0 := by
  have hnames : (addCommands newCommandCategories calls).Categories.map commandCategory.Name =
      firstOccurrences (calls.map Prod.fst) := by
    rw [categories_eq, addCommands_eq_groupedCommands]
    simp [groupedCommands, commandCategory.Name, Function.comp_def]
  refine ⟨?_, ?_, ?_, rfl⟩
  · rw [hnames]; exact nodup_firstOccurrences _
  · intro n; rw [hnames]; exact mem_firstOccurrences _ _
  · rw [← length_firstOccurrences, ← hnames, List.length_map]

/-- C4: `VisibleCommands()` returns exactly the commands of the category whose
`Hidden` is false, in their stored order; the result is empty for a category
without commands (absent or empty slice) and for one with only hidden
commands. -/
theorem visibleCommands_eq_filter (c : commandCategory) :
    c.VisibleCommands.2 = (sliceElems c.commands).filter (fun cmd => !cmd.Hidden) ∧
      (sliceElems c.commands = [] → c.VisibleCommands.2 = []) ∧
      ((∀ cmd ∈ sliceElems c.commands, cmd.Hidden = true) → c.VisibleCommands.2 = []) := by
  have h : c.VisibleCommands.2 = (sliceElems c.commands).filter (fun cmd => !cmd.Hidden) := by
    cases hc : c.commands with
    | none => simp [commandCategory.VisibleCommands, hc, sliceElems]
    | some l =>
      simp only [commandCategory.VisibleCommands, hc, sliceElems]
      rw [visibleLoop_eq, List.nil_append]
  refine ⟨h, ?_, ?_⟩
  · intro he; rw [h, he]; rfl
  · intro hh
    rw [h, List.filter_eq_nil_iff]
    intro cmd hcmd
    simp [hh cmd hcmd]

/-! ## Properties of the flag registry -/

theorem firstOccurrences_filter (p : String → Bool) (l : List String) :
    firstOccurrences (l.filter p) = (firstOccurrences l).filter p := by
  induction l with
  | nil => rfl
  | cons x xs ih =>
    by_cases hx : p x = true
    · rw [List.filter_cons_of_pos hx]
      simp only [firstOccurrences]
      rw [List.filter_cons_of_pos hx, ih, List.filter_filter, List.filter_filter]
      congr 1
      apply List.filter_congr
      intro y _
      exact Bool.and_comm _ _
    · rw [List.filter_cons_of_neg hx]
      simp only [firstOccurrences]
      rw [List.filter_cons_of_neg hx, ih, List.filter_filter]
      apply List.filter_congr
      intro y _
      by_cases hy : y = x
      · subst hy; simp [hx]
      · simp [hy]

theorem flagsUnder_append (calls : List (String × Flag)) (p : String × Flag) (k : String) :
    flagsUnder (calls ++ [p]) k = flagsUnder calls k ++ (if p.1 = k then [p.2] else []) := by
  by_cases h : p.1 = k <;> simp [flagsUnder, List.filter_append, List.filter_cons, h]

theorem flagsUnder_eq_nil (calls : List (String × Flag)) (n : String)
    (h : n ∉ calls.map Prod.fst) : flagsUnder calls n = [] := by
  simp only [flagsUnder, List.map_eq_nil_iff, List.filter_eq_nil_iff, decide_eq_true_eq]
  intro p hp hpn
  exact h (List.mem_map.mpr ⟨p, hp, hpn⟩)

theorem mem_flagsUnder (calls : List (String × Flag)) (n : String) (fl : Flag) :
    fl ∈ flagsUnder calls n ↔ (n, fl) ∈ calls := by
  simp only [flagsUnder, List.mem_map, List.mem_filter, decide_eq_true_eq]
  constructor
  · rintro ⟨⟨a, b⟩, ⟨hp, rfl⟩, rfl⟩
    exact hp
  · intro h
    exact ⟨(n, fl), ⟨h, rfl⟩, rfl⟩

theorem addFlags_append (f : defaultFlagCategories) (calls : List (String × Flag))
    (p : String × Flag) :
    addFlags f (calls ++ [p]) = (addFlags f calls).AddFlag p.1 p.2 := by
  simp [addFlags, List.foldl_append]

theorem addFlag_groupedFlags (calls : List (String × Flag)) (p : String × Flag) :
    (groupedFlags calls).AddFlag p.1 p.2 = groupedFlags (calls ++ [p]) := by
  have hnames : firstOccurrences ("" :: List.map Prod.fst (calls ++ [p])) =
      if p.1 ∈ "" :: calls.map Prod.fst then firstOccurrences ("" :: calls.map Prod.fst)
      else firstOccurrences ("" :: calls.map Prod.fst) ++ [p.1] := by
    rw [List.map_append, List.map_singleton, ← List.cons_append,
      firstOccurrences_append_singleton]
  by_cases hn : p.1 ∈ "" :: calls.map Prod.fst
  · have hm : (groupedFlags calls).m p.1 =
        some { name := p.1, flags := flagsUnder calls p.1 } := by
      simp only [groupedFlags, if_pos hn]
    simp only [defaultFlagCategories.AddFlag, hm]
    simp only [groupedFlags, hnames, if_pos hn, defaultFlagCategories.mk.injEq, true_and]
    funext k
    by_cases hk : k = p.1
    · subst hk
      simp [mapSet, flagsUnder_append]
    · have hk2 : ¬ p.1 = k := fun h => hk h.symm
      have hmem : k ∈ "" :: List.map Prod.fst (calls ++ [p]) ↔
          k ∈ "" :: List.map Prod.fst calls := by
        rw [List.map_append, List.map_singleton, ← List.cons_append, List.mem_append,
          List.mem_singleton]
        exact or_iff_left hk
      simp only [mapSet, if_neg hk, hmem, flagsUnder_append, if_neg hk2, List.append_nil]
  · have hm : (groupedFlags calls).m p.1 = none := by
      simp only [groupedFlags, if_neg hn]
    have hn2 : p.1 ∉ calls.map Prod.fst := fun h => hn (List.mem_cons_of_mem _ h)
    simp only [defaultFlagCategories.AddFlag, hm]
    simp only [groupedFlags, hnames, if_neg hn, defaultFlagCategories.mk.injEq, true_and]
    funext k
    by_cases hk : k = p.1
    · subst hk
      simp [mapSet, flagsUnder_append, flagsUnder_eq_nil _ _ hn2]
    · have hk2 : ¬ p.1 = k := fun h => hk h.symm
      have hmem : k ∈ "" :: List.map Prod.fst (calls ++ [p]) ↔
          k ∈ "" :: List.map Prod.fst calls := by
        rw [List.map_append, List.map_singleton, ← List.cons_append, List.mem_append,
          List.mem_singleton]
        exact or_iff_left hk
      simp only [mapSet, if_neg hk, hmem, flagsUnder_append, if_neg hk2, List.append_nil]

/-- The registry reached from `newFlagCategories` by a call sequence is the
grouping of the calls by name. -/
theorem addFlags_eq_groupedFlags (calls : List (String × Flag)) :
    addFlags newFlagCategories calls = groupedFlags calls := by
  induction calls using List.reverseRecOn with
  | nil =>
    simp only [addFlags, List.foldl_nil, newFlagCategories, groupedFlags, List.map_nil,
      firstOccurrences, List.filter_nil, defaultFlagCategories.mk.injEq, true_and]
    funext k
    by_cases hk : k = ""
    · subst hk; simp [flagsUnder]
    · simp [hk]
  | append_singleton calls p ih =>
    rw [addFlags_append, ih, addFlag_groupedFlags]

theorem groupedFlags_names (calls : List (String × Flag)) :
    (groupedFlags calls).names =
      "" :: firstOccurrences ((calls.map Prod.fst).filter (fun n => decide (n ≠ ""))) := by
  simp only [groupedFlags, firstOccurrences, firstOccurrences_filter]

theorem groupedFlags_names_map (calls : List (String × Flag)) :
    (groupedFlags calls).names.map (fun name => (groupedFlags calls).m name) =
      (groupedFlags calls).names.map
        (fun n => some ({ name := n, flags := flagsUnder calls n } :
          defaultVisibleFlagCategory)) := by
  apply List.map_congr_left
  intro n hn
  have : n ∈ "" :: calls.map Prod.fst := (mem_firstOccurrences _ _).mp hn
  simp only [groupedFlags, if_pos this]

theorem groupedFlags_length_eq_one_iff (calls : List (String × Flag)) :
    (groupedFlags calls).names.length = 1 ↔ ∀ p ∈ calls, p.1 = "" := by
  rw [groupedFlags_names, List.length_cons, Nat.succ_inj, List.length_eq_zero,
    List.eq_nil_iff_forall_not_mem]
  constructor
  · intro h p hp
    by_contra hne
    refine h p.1 ((mem_firstOccurrences _ _).mpr ?_)
    exact List.mem_filter.mpr ⟨List.mem_map.mpr ⟨p, hp, rfl⟩, by simpa using hne⟩
  · intro h n hn
    have hmem := List.mem_filter.mp ((mem_firstOccurrences _ _).mp hn)
    obtain ⟨p, hp, rfl⟩ := List.mem_map.mp hmem.1
    have := hmem.2
    simp [h p hp] at this

theorem flagsLoop_of_visibleFlag (l : List Flag) (h : ∀ fl ∈ l, fl.visible.isSome = true) :
    ∀ acc : List VisibleFlag,
      ∃ vs, l.foldl flagsLoopBody (some acc) = some (acc ++ vs) ∧
        vs.map VisibleFlag.flag = l ∧ ∀ v ∈ vs, v.flag.visible = some v.IsVisible := by
  induction l with
  | nil => intro acc; exact ⟨[], by simp, rfl, by simp⟩
  | cons x xs ih =>
    intro acc
    obtain ⟨b, hb⟩ := Option.isSome_iff_exists.mp (h x (List.mem_cons_self _ _))
    obtain ⟨vs, h1, h2, h3⟩ :=
      ih (fun fl hfl => h fl (List.mem_cons_of_mem _ hfl)) (acc ++ [{ flag := x, IsVisible := b }])
    refine ⟨{ flag := x, IsVisible := b } :: vs, ?_, ?_, ?_⟩
    · simp only [List.foldl_cons, flagsLoopBody, Flag.assertVisibleFlag, hb]
      rw [h1, List.append_assoc, List.singleton_append]
    · simp [h2]
    · intro v hv
      rcases List.mem_cons.mp hv with rfl | hv
      · exact hb
      · exact h3 v hv

theorem flags_of_visibleFlag (cat : defaultVisibleFlagCategory)
    (h : ∀ fl ∈ cat.flags, fl.visible.isSome = true) :
    ∃ vs, cat.Flags = some vs ∧ vs.map VisibleFlag.flag = cat.flags ∧
      (∀ v ∈ vs, v.flag.visible = some v.IsVisible) ∧ vs.length = cat.flags.length := by
  obtain ⟨vs, h1, h2, h3⟩ := flagsLoop_of_visibleFlag cat.flags h []
  refine ⟨vs, ?_, h2, h3, ?_⟩
  · simpa [defaultVisibleFlagCategory.Flags] using h1
  · rw [← h2, List.length_map]

theorem groupedFlags_m_eq_some (calls : List (String × Flag)) (n : String)
    (cat : defaultVisibleFlagCategory) (h : (groupedFlags calls).m n = some cat) :
    cat = { name := n, flags := flagsUnder calls n } := by
  by_cases hn : n ∈ "" :: calls.map Prod.fst
  · simp only [groupedFlags, if_pos hn, Option.some.injEq] at h
    exact h.symm
  · simp only [groupedFlags, if_neg hn] at h
    exact absurd h (by simp)

theorem fromFlags_append (fs : List Flag) (fl : Flag) :
    newFlagCategoriesFromFlags (fs ++ [fl]) =
      fromFlagsLoopBody (newFlagCategoriesFromFlags fs) fl := by
  simp [newFlagCategoriesFromFlags, List.foldl_append]

theorem fromFlagsSpec_append (fs : List Flag) (fl : Flag) :
    fromFlagsSpec (fs ++ [fl]) =
      if fl.categorizableAndVisible = true then
        (fromFlagsSpec fs).AddFlag (fl.category.getD "") fl
      else fromFlagsSpec fs := by
  by_cases h : fl.categorizableAndVisible = true
  · simp [fromFlagsSpec, List.filter_append, List.filter_cons, h, addFlags, List.foldl_append]
  · simp [fromFlagsSpec, List.filter_append, List.filter_cons, h]

theorem fromFlagsLoop_none (fs : List Flag) : fs.foldl fromFlagsLoopBody none = none := by
  induction fs with
  | nil => rfl
  | cons x xs ih => simpa [List.foldl_cons, fromFlagsLoopBody] using ih

theorem fromFlagsLoopBody_some (fc : defaultFlagCategories) (fl : Flag) :
    fromFlagsLoopBody (some fc) fl =
      if fl.categorizableAndVisible = true then
        some (fc.AddFlag (fl.category.getD "") fl)
      else some fc := by
  cases hv : fl.visible with
  | none =>
    cases hc : fl.category <;>
      simp [fromFlagsLoopBody, Flag.asCategorizableFlag, hv, hc, Flag.categorizableAndVisible]
  | some b =>
    cases hc : fl.category with
    | none =>
      simp [fromFlagsLoopBody, Flag.asCategorizableFlag, hv, hc, Flag.categorizableAndVisible]
    | some c =>
      cases b <;>
        simp [fromFlagsLoopBody, Flag.asCategorizableFlag, Flag.assertVisibleFlag, hv, hc,
          Flag.categorizableAndVisible]

/-- The constructor completes on every flag sequence, with the registry of the
spec's description. -/
theorem fromFlags_eq_spec (fs : List Flag) :
    newFlagCategoriesFromFlags fs = some (fromFlagsSpec fs) := by
  induction fs using List.reverseRecOn with
  | nil => rfl
  | append_singleton fs fl ih =>
    rw [fromFlags_append, ih, fromFlagsSpec_append, fromFlagsLoopBody_some]
    by_cases h : fl.categorizableAndVisible = true
    · rw [if_pos h, if_pos h]
    · rw [if_neg h, if_neg h]

theorem fromFlagsLoopBody_skip (acc : Option defaultFlagCategories) (f : Flag)
    (h : f.categorizableAndVisible = false) : fromFlagsLoopBody acc f = acc := by
  cases acc with
  | none => rfl
  | some fc => rw [fromFlagsLoopBody_some, h]; rfl

theorem fromFlags_skip (xs ys : List Flag) (f : Flag)
    (h : f.categorizableAndVisible = false) :
    newFlagCategoriesFromFlags (xs ++ f :: ys) = newFlagCategoriesFromFlags (xs ++ ys) := by
  simp [newFlagCategoriesFromFlags, List.foldl_append, List.foldl_cons,
    fromFlagsLoopBody_skip _ f h]

theorem fromFlagsSpec_flags_visible (fs : List Flag) (n : String)
    (cat : defaultVisibleFlagCategory) (h : (fromFlagsSpec fs).m n = some cat) :
    ∀ fl ∈ cat.flags, fl.visible = some true := by
  intro fl hfl
  rw [fromFlagsSpec, addFlags_eq_groupedFlags] at h
  have hcat := groupedFlags_m_eq_some _ _ _ h
  rw [hcat] at hfl
  have hmem := (mem_flagsUnder _ _ _).mp hfl
  obtain ⟨g, hg, heq⟩ := List.mem_map.mp hmem
  have hg2 := (List.mem_filter.mp hg).2
  have hgfl : g = fl := congrArg Prod.snd heq
  rw [hgfl] at hg2
  simp only [Flag.categorizableAndVisible, Bool.and_eq_true, beq_iff_eq] at hg2
  exact hg2.2

/-! ### The claims on the flag registry -/

/-- C5: after a sequence of `AddFlag` calls on a fresh registry in which some
call uses a non-empty name, `VisibleCategories()` returns, for the empty name
followed by the distinct non-empty names in order of first occurrence, the
category of that name holding the flags passed under it; these names are
pairwise distinct, they are the internal name list, and their number is 1 plus
the number of distinct non-empty names. -/
theorem visibleCategories_first_insertion_order (calls : List (String × Flag))
    (h : ∃ p ∈ calls, p.1 ≠ "") :
    (addFlags newFlagCategories calls).VisibleCategories =
        some (("" :: firstOccurrences
            ((calls.map Prod.fst).filter (fun n => decide (n ≠ "")))).map
          (fun n => some { name := n, flags := flagsUnder calls n })) ∧
      ("" :: firstOccurrences
          ((calls.map Prod.fst).filter (fun n => decide (n ≠ "")))).Nodup ∧
      (addFlags newFlagCategories calls).names =
        "" :: firstOccurrences ((calls.map Prod.fst).filter (fun n => decide (n ≠ ""))) ∧
      (∃ cats, (addFlags newFlagCategories calls).VisibleCategories = some cats ∧
        cats.map (Option.map defaultVisibleFlagCategory.Name) =
          ("" :: firstOccurrences
            ((calls.map Prod.fst).filter (fun n => decide (n ≠ "")))).map some ∧
        cats.length = (addFlags newFlagCategories calls).names.length ∧
        cats.length =
          1 + ((calls.map Prod.fst).filter (fun n => decide (n ≠ ""))).toFinset.card) := by
  have hlen : ¬ (groupedFlags calls).names.length = 1 := by
    rw [groupedFlags_length_eq_one_iff]
    obtain ⟨p, hp, hne⟩ := h
    exact fun hall => hne (hall p hp)
  have hvc : (addFlags newFlagCategories calls).VisibleCategories =
      some (("" :: firstOccurrences
          ((calls.map Prod.fst).filter (fun n => decide (n ≠ "")))).map
        (fun n => some { name := n, flags := flagsUnder calls n })) := by
    rw [addFlags_eq_groupedFlags]
    simp only [defaultFlagCategories.VisibleCategories, if_neg hlen]
    rw [groupedFlags_names_map, groupedFlags_names]
  have hnodup : ("" :: firstOccurrences
      ((calls.map Prod.fst).filter (fun n => decide (n ≠ "")))).Nodup := by
    rw [← groupedFlags_names]
    exact nodup_firstOccurrences _
  have hnames : (addFlags newFlagCategories calls).names =
      "" :: firstOccurrences ((calls.map Prod.fst).filter (fun n => decide (n ≠ ""))) := by
    rw [addFlags_eq_groupedFlags, groupedFlags_names]
  refine ⟨hvc, hnodup, hnames, _, hvc, ?_, ?_, ?_⟩
  · simp [defaultVisibleFlagCategory.Name, Function.comp_def]
  · rw [hnames]; simp
  · rw [List.length_map, List.length_cons, length_firstOccurrences, Nat.add_comm]

/-- C5 at the calls `AddFlag("net", f1)`, `AddFlag("io", f2)`,
`AddFlag("net", f3)`. -/
theorem visibleCategories_first_insertion_order_witness :
    (∃ p ∈ callsNetIoNet, p.1 ≠ "") ∧
      ((addFlags newFlagCategories callsNetIoNet).VisibleCategories =
          some (("" :: firstOccurrences
              ((callsNetIoNet.map Prod.fst).filter (fun n => decide (n ≠ "")))).map
            (fun n => some { name := n, flags := flagsUnder callsNetIoNet n })) ∧
        ("" :: firstOccurrences
            ((callsNetIoNet.map Prod.fst).filter (fun n => decide (n ≠ "")))).Nodup ∧
        (addFlags newFlagCategories callsNetIoNet).names =
          "" :: firstOccurrences
            ((callsNetIoNet.map Prod.fst).filter (fun n => decide (n ≠ ""))) ∧
        (∃ cats, (addFlags newFlagCategories callsNetIoNet).VisibleCategories = some cats ∧
          cats.map (Option.map defaultVisibleFlagCategory.Name) =
            ("" :: firstOccurrences
              ((callsNetIoNet.map Prod.fst).filter (fun n => decide (n ≠ "")))).map some ∧
          cats.length = (addFlags newFlagCategories callsNetIoNet).names.length ∧
          cats.length =
            1 + ((callsNetIoNet.map Prod.fst).filter
              (fun n => decide (n ≠ ""))).toFinset.card)) :=
  ⟨by decide, visibleCategories_first_insertion_order callsNetIoNet (by decide)⟩

/-- The names returned for the calls `AddFlag("net", f1)`, `AddFlag("io", f2)`,
`AddFlag("net", f3)` are "", "net", "io". -/
theorem visibleCategories_netIoNet :
    ((addFlags newFlagCategories callsNetIoNet).VisibleCategories.map
      (fun cats => cats.map (Option.map defaultVisibleFlagCategory.Name))) =
        some [some "", some "net", some "io"] := by
  decide

/-- C6: after any sequence of `AddFlag` calls on a fresh registry,
`VisibleCategories()` returns the nil result exactly when every call used the
empty name (in particular when no call was made), and a result that is not nil
is a non-empty sequence. -/
theorem visibleCategories_none_iff (calls : List (String × Flag)) :
    ((addFlags newFlagCategories calls).VisibleCategories = none ↔
        ∀ p ∈ calls, p.1 = "") ∧
      newFlagCategories.VisibleCategories = none ∧
      (∀ cats, (addFlags newFlagCategories calls).VisibleCategories = some cats →
        cats ≠ [] ∧ 2 ≤ cats.length) := by
  refine ⟨?_, rfl, ?_⟩
  · rw [addFlags_eq_groupedFlags, ← groupedFlags_length_eq_one_iff]
    by_cases hl : (groupedFlags calls).names.length = 1 <;>
      simp [defaultFlagCategories.VisibleCategories, hl]
  · intro cats hc
    rw [addFlags_eq_groupedFlags] at hc
    by_cases hl : (groupedFlags calls).names.length = 1
    · simp [defaultFlagCategories.VisibleCategories, hl] at hc
    · simp only [defaultFlagCategories.VisibleCategories, if_neg hl, Option.some.injEq] at hc
      have hlen : cats.length = (groupedFlags calls).names.length := by
        rw [← hc, List.length_map]
      have hpos : 1 ≤ (groupedFlags calls).names.length := by
        rw [groupedFlags_names]; simp
      have h2 : 2 ≤ cats.length := by omega
      refine ⟨?_, h2⟩
      intro hnil
      rw [hnil] at h2
      simp at h2

/-- C7: after a sequence of `AddFlag` calls on a fresh registry in which every
flag has the `VisibleFlag` capability, the category bound to a name `n` stores
exactly the flags passed under `n`, in call order and with multiplicity, and its
`Flags()` completes with the projections of these flags, one per stored flag;
the pre-seeded category of a fresh registry has no flags. -/
theorem flags_hold_flags_by_name (calls : List (String × Flag))
    (hvis : ∀ p ∈ calls, p.2.visible.isSome = true) (n : String)
    (cat : defaultVisibleFlagCategory)
    (hcat : (addFlags newFlagCategories calls).m n = some cat) :
    cat.flags = flagsUnder calls n ∧
      (∃ vs, cat.Flags = some vs ∧ vs.map VisibleFlag.flag = flagsUnder calls n ∧
        (∀ v ∈ vs, v.flag.visible = some v.IsVisible) ∧ vs.length = cat.flags.length) ∧
      (∃ c0, newFlagCategories.m "" = some c0 ∧ c0.Flags = some []) := by
  rw [addFlags_eq_groupedFlags] at hcat
  have hc := groupedFlags_m_eq_some _ _ _ hcat
  have hflags : cat.flags = flagsUnder calls n := by rw [hc]
  have hv : ∀ fl ∈ cat.flags, fl.visible.isSome = true := by
    intro fl hfl
    rw [hflags] at hfl
    exact hvis (n, fl) ((mem_flagsUnder _ _ _).mp hfl)
  obtain ⟨vs, h1, h2, h3, h4⟩ := flags_of_visibleFlag cat hv
  exact ⟨hflags, ⟨vs, h1, hflags ▸ h2, h3, h4⟩, ⟨{ name := "", flags := [] }, rfl, rfl⟩⟩

/-- C7 at the calls `AddFlag("net", f1)`, `AddFlag("io", f2)`,
`AddFlag("net", f3)` and the name "net". -/
theorem flags_hold_flags_by_name_witness :
    (∀ p ∈ callsNetIoNet, p.2.visible.isSome = true) ∧
      (addFlags newFlagCategories callsNetIoNet).m "net" = some categoryNet ∧
      (categoryNet.flags = flagsUnder callsNetIoNet "net" ∧
        (∃ vs, categoryNet.Flags = some vs ∧
          vs.map VisibleFlag.flag = flagsUnder callsNetIoNet "net" ∧
          (∀ v ∈ vs, v.flag.visible = some v.IsVisible) ∧
          vs.length = categoryNet.flags.length) ∧
        (∃ c0, newFlagCategories.m "" = some c0 ∧ c0.Flags = some [])) :=
  ⟨by decide, by decide,
    flags_hold_flags_by_name callsNetIoNet (by decide) "net" categoryNet (by decide)⟩

/-- C8: for every flag sequence, `newFlagCategoriesFromFlags` completes with the
same registry (same name list, same map entries, hence the same flags per
category in the same order) as `newFlagCategories` followed by
`AddFlag(f.GetCategory(), f)`, in sequence order, for exactly the flags that are
both Categorizable and Visible. -/
theorem fromFlags_refines_spec (fs : List Flag) :
    newFlagCategoriesFromFlags fs = some (fromFlagsSpec fs) ∧
      (∀ fc, newFlagCategoriesFromFlags fs = some fc →
        fc.names = (fromFlagsSpec fs).names ∧ ∀ n, fc.m n = (fromFlagsSpec fs).m n) := by
  have hs := fromFlags_eq_spec fs
  refine ⟨hs, ?_⟩
  intro fc hfc
  rw [hs, Option.some.injEq] at hfc
  rw [← hfc]
  exact ⟨rfl, fun _ => rfl⟩

/-- From `flagsMixed` only the first and the fourth flag are registered, both
under "a", in that order. -/
theorem fromFlags_flagsMixed :
    (newFlagCategoriesFromFlags flagsMixed).map
        (fun fc => (fc.names, fc.names.map fc.m)) =
      some (["", "a"], [some { name := "", flags := [] }, some categoryA]) := by
  decide

/-- From a flag that reports the category "a" without the `VisibleFlag`
capability, followed by a visible flag of category "b", only the second flag is
registered. -/
theorem fromFlags_flagsCategorizableOnlyThenVisible :
    (newFlagCategoriesFromFlags flagsCategorizableOnlyThenVisible).map
        (fun fc => (fc.names, fc.names.map fc.m, fc.m "a")) =
      some (["", "b"],
        [some { name := "", flags := [] },
         some { name := "b",
                flags := [{ ptr := 2, visible := some true, category := some "b" }] }],
        none) := by
  decide

/-- C9: `newFlagCategoriesFromFlags` completes on every flag sequence; a flag
without the `VisibleFlag` capability, also when it reports a category, is
skipped: the result is that of the sequence without it, and the flag is stored
in no category of the resulting registry. -/
theorem fromFlags_never_fails (fs : List Flag) :
    (∃ fc, newFlagCategoriesFromFlags fs = some fc) ∧
      (∀ xs ys f, fs = xs ++ f :: ys → f.visible = none →
        newFlagCategoriesFromFlags fs = newFlagCategoriesFromFlags (xs ++ ys)) ∧
      (∀ fc, newFlagCategoriesFromFlags fs = some fc →
        ∀ f, f.visible = none → ∀ n cat, fc.m n = some cat → f ∉ cat.flags) := by
  refine ⟨⟨_, fromFlags_eq_spec fs⟩, ?_, ?_⟩
  · intro xs ys f hfs hv
    rw [hfs]
    exact fromFlags_skip xs ys f (by simp [Flag.categorizableAndVisible, hv])
  · intro fc hfc f hv n cat hcat hmem
    have hspec := fromFlags_eq_spec fs
    rw [hfc, Option.some.injEq] at hspec
    rw [hspec] at hcat
    have := fromFlagsSpec_flags_visible fs n cat hcat f hmem
    rw [hv] at this
    exact Option.noConfusion this

/-- C10: when `newFlagCategoriesFromFlags` completes, every flag stored in a
category of the resulting registry has the `VisibleFlag` capability and reports
`IsVisible() = true`, and `Flags()` of that category completes with one
projection per stored flag, each reporting visible. -/
theorem fromFlags_flags_visible (fs : List Flag) (fc : defaultFlagCategories)
    (h : newFlagCategoriesFromFlags fs = some fc) (n : String)
    (cat : defaultVisibleFlagCategory) (hcat : fc.m n = some cat) :
    (∀ fl ∈ cat.flags, fl.visible = some true) ∧
      ∃ vs, cat.Flags = some vs ∧ vs.length = cat.flags.length ∧
        vs.map VisibleFlag.flag = cat.flags ∧ ∀ v ∈ vs, v.IsVisible = true := by
  have hspec := fromFlags_eq_spec fs
  rw [h, Option.some.injEq] at hspec
  rw [hspec] at hcat
  have hvis := fromFlagsSpec_flags_visible fs n cat hcat
  obtain ⟨vs, h1, h2, h3, h4⟩ :=
    flags_of_visibleFlag cat (fun fl hfl => by rw [hvis fl hfl]; rfl)
  refine ⟨hvis, vs, h1, h4, h2, ?_⟩
  intro v hv
  have hmem : v.flag ∈ cat.flags := by
    rw [← h2]
    exact List.mem_map.mpr ⟨v, hv, rfl⟩
  have := h3 v hv
  rw [hvis v.flag hmem] at this
  exact (Option.some.inj this).symm

/-- C10 at `flagsMixed` and its category "a". -/
theorem fromFlags_flags_visible_witness :
    newFlagCategoriesFromFlags flagsMixed = some (fromFlagsSpec flagsMixed) ∧
      (fromFlagsSpec flagsMixed).m "a" = some categoryA ∧
      ((∀ fl ∈ categoryA.flags, fl.visible = some true) ∧
        ∃ vs, categoryA.Flags = some vs ∧ vs.length = categoryA.flags.length ∧
          vs.map VisibleFlag.flag = categoryA.flags ∧ ∀ v ∈ vs, v.IsVisible = true) :=
  ⟨rfl, by decide,
    fromFlags_flags_visible flagsMixed (fromFlagsSpec flagsMixed) rfl "a" categoryA
      (by decide)⟩

/-! ## Further properties of the two registries -/

theorem fromFlagsSpec_eq_groupedFlags (fs : List Flag) :
    fromFlagsSpec fs =
      groupedFlags ((fs.filter Flag.categorizableAndVisible).map
        (fun fl => (fl.category.getD "", fl))) := by
  rw [fromFlagsSpec, addFlags_eq_groupedFlags]

theorem mem_flagsUnder_fromFlags (fs : List Flag) (n : String) (fl : Flag) :
    fl ∈ flagsUnder ((fs.filter Flag.categorizableAndVisible).map
        (fun fl => (fl.category.getD "", fl))) n ↔
      fl ∈ fs ∧ fl.categorizableAndVisible = true ∧ fl.category = some n := by
  rw [mem_flagsUnder, List.mem_map]
  constructor
  · rintro ⟨g, hg, heq⟩
    have hgfl : g = fl := congrArg Prod.snd heq
    subst hgfl
    have hn : g.category.getD "" = n := congrArg Prod.fst heq
    obtain ⟨hmem, hcav⟩ := List.mem_filter.mp hg
    refine ⟨hmem, hcav, ?_⟩
    simp only [Flag.categorizableAndVisible, Bool.and_eq_true] at hcav
    obtain ⟨c, hc⟩ := Option.isSome_iff_exists.mp hcav.1
    rw [hc] at hn ⊢
    simpa using hn
  · rintro ⟨hmem, hcav, hc⟩
    exact ⟨fl, List.mem_filter.mpr ⟨hmem, hcav⟩, by simp [hc]⟩

theorem groupedFlags_m_empty (calls : List (String × Flag)) :
    (groupedFlags calls).m "" = some { name := "", flags := flagsUnder calls "" } := by
  simp [groupedFlags]

theorem groupedFlags_m_isSome_iff (calls : List (String × Flag)) (n : String) :
    ((groupedFlags calls).m n).isSome = true ↔ n ∈ (groupedFlags calls).names := by
  have hmem : n ∈ (groupedFlags calls).names ↔ n ∈ "" :: calls.map Prod.fst :=
    mem_firstOccurrences _ _
  rw [hmem]
  by_cases hn : n ∈ "" :: calls.map Prod.fst
  · have hm : (groupedFlags calls).m n =
        some { name := n, flags := flagsUnder calls n } := by
      simp only [groupedFlags, if_pos hn]
    rw [hm]
    exact ⟨fun _ => hn, fun _ => rfl⟩
  · have hm : (groupedFlags calls).m n = none := by
      simp only [groupedFlags, if_neg hn]
    rw [hm]
    exact ⟨fun h => absurd h (by simp), fun h => absurd h hn⟩

theorem visibleCommands_fst_of_some (c : commandCategory) (h : c.commands ≠ none) :
    c.VisibleCommands.1 = c := by
  cases hc : c.commands with
  | none => exact absurd hc h
  | some l => simp only [commandCategory.VisibleCommands, hc]

theorem visibleCommands_fst_name (c : commandCategory) : c.VisibleCommands.1.name = c.name := by
  cases hc : c.commands <;> simp only [commandCategory.VisibleCommands, hc]

theorem visibleCommands_fst_elems (c : commandCategory) :
    sliceElems c.VisibleCommands.1.commands = sliceElems c.commands := by
  cases hc : c.commands <;> simp only [commandCategory.VisibleCommands, hc, sliceElems]

theorem visibleCommands_snd_eq (c d : commandCategory)
    (h : sliceElems c.commands = sliceElems d.commands) :
    c.VisibleCommands.2 = d.VisibleCommands.2 := by
  have hc : c.VisibleCommands.2 =
      (sliceElems c.VisibleCommands.1.commands).foldl
        (fun ret command => if !command.Hidden then ret ++ [command] else ret) [] := rfl
  have hd : d.VisibleCommands.2 =
      (sliceElems d.VisibleCommands.1.commands).foldl
        (fun ret command => if !command.Hidden then ret ++ [command] else ret) [] := rfl
  rw [hc, hd, visibleCommands_fst_elems, visibleCommands_fst_elems, h]

theorem visibleCommandsAt_eq_self (reg : commandCategories)
    (h : ∀ c ∈ reg, c.commands ≠ none) : ∀ i, visibleCommandsAt reg i = reg := by
  induction reg with
  | nil => intro i; rfl
  | cons c rest ih =>
    intro i
    cases i with
    | zero =>
      simp only [visibleCommandsAt]
      rw [visibleCommands_fst_of_some c (h c (List.mem_cons_self _ _))]
    | succ i =>
      simp only [visibleCommandsAt]
      rw [ih (fun d hd => h d (List.mem_cons_of_mem _ hd)) i]

theorem visibleCommandsAt_map (reg : commandCategories) {β : Type}
    (g : commandCategory → β) (hg : ∀ c : commandCategory, g c.VisibleCommands.1 = g c) :
    ∀ i, (visibleCommandsAt reg i).map g = reg.map g := by
  induction reg with
  | nil => intro i; rfl
  | cons c rest ih =>
    intro i
    cases i with
    | zero => simp only [visibleCommandsAt, List.map_cons, hg]
    | succ i => simp only [visibleCommandsAt, List.map_cons, ih i]

theorem groupedCommands_commands_ne_none (calls : List (String × Command)) :
    ∀ c ∈ groupedCommands calls, c.commands ≠ none := by
  intro c hc
  obtain ⟨n, _, rfl⟩ := List.mem_map.mp hc
  simp

theorem addCommand_names_of_mem (reg : commandCategories) (n : String) (cmd : Command)
    (h : n ∈ reg.map commandCategory.Name) :
    (reg.AddCommand n cmd).map commandCategory.Name = reg.map commandCategory.Name := by
  induction reg with
  | nil => simp at h
  | cons c rest ih =>
    by_cases hc : c.name = n
    · simp [commandCategories.AddCommand, hc, commandCategory.Name]
    · have hrest : n ∈ rest.map commandCategory.Name := by
        rcases List.mem_cons.mp h with h1 | h1
        · exact absurd h1.symm hc
        · exact h1
      simp only [commandCategories.AddCommand, if_neg hc, List.map_cons, ih hrest]

theorem addCommand_of_not_mem (reg : commandCategories) (n : String) (cmd : Command)
    (h : n ∉ reg.map commandCategory.Name) :
    reg.AddCommand n cmd = reg ++ [{ name := n, commands := some [cmd] }] := by
  induction reg with
  | nil => rfl
  | cons c rest ih =>
    have hc : ¬ c.name = n := fun he => h (by simp [commandCategory.Name, he])
    have hrest : n ∉ rest.map commandCategory.Name :=
      fun hm => h (List.mem_cons_of_mem _ hm)
    simp only [commandCategories.AddCommand, if_neg hc, ih hrest, List.cons_append]

theorem groupedCommands_names (calls : List (String × Command)) :
    (groupedCommands calls).map commandCategory.Name = firstOccurrences (calls.map Prod.fst) := by
  simp [groupedCommands, commandCategory.Name, Function.comp_def]

/-! ### The remaining claims on the command registry -/

/-- C14: `VisibleCommands()` leaves the name of the category and its command
sequence unchanged, the only change being an absent command slice made empty;
a second call leaves the same category and returns the same result; in a
registry, a call through one of its categories changes neither the names, nor
the command sequences, nor the `VisibleCommands()` results seen through
`Categories()`, and after `AddCommand` calls on a fresh registry `Categories()`
returns exactly what it returned before the call. -/
theorem visibleCommands_frame (c : commandCategory) (reg : commandCategories) (i : Nat)
    (calls : List (String × Command)) :
    c.VisibleCommands.1.name = c.name ∧
      sliceElems c.VisibleCommands.1.commands = sliceElems c.commands ∧
      (c.VisibleCommands.1 = c ∨
        (c.commands = none ∧ c.VisibleCommands.1 = { name := c.name, commands := some [] })) ∧
      c.VisibleCommands.1.VisibleCommands = c.VisibleCommands ∧
      (visibleCommandsAt reg i).Categories.map commandCategory.Name =
        reg.Categories.map commandCategory.Name ∧
      (visibleCommandsAt reg i).Categories.map (fun cat => sliceElems cat.commands) =
        reg.Categories.map (fun cat => sliceElems cat.commands) ∧
      (visibleCommandsAt reg i).Categories.map (fun cat => cat.VisibleCommands.2) =
        reg.Categories.map (fun cat => cat.VisibleCommands.2) ∧
      (visibleCommandsAt (addCommands newCommandCategories calls) i).Categories =
        (addCommands newCommandCategories calls).Categories := by
  refine ⟨visibleCommands_fst_name c, visibleCommands_fst_elems c, ?_, ?_, ?_, ?_, ?_, ?_⟩
  · cases hc : c.commands with
    | none => exact Or.inr ⟨rfl, by simp only [commandCategory.VisibleCommands, hc]⟩
    | some l => exact Or.inl (visibleCommands_fst_of_some c (by simp [hc]))
  · have h1 : c.VisibleCommands.1.VisibleCommands.1 = c.VisibleCommands.1 := by
      cases hc : c.commands <;> simp only [commandCategory.VisibleCommands, hc]
    have h2 := visibleCommands_snd_eq c.VisibleCommands.1 c (visibleCommands_fst_elems c)
    exact Prod.ext h1 h2
  · rw [categories_eq, categories_eq]
    exact visibleCommandsAt_map reg _ (fun d => visibleCommands_fst_name d) i
  · rw [categories_eq, categories_eq]
    exact visibleCommandsAt_map reg _ (fun d => visibleCommands_fst_elems d) i
  · rw [categories_eq, categories_eq]
    exact visibleCommandsAt_map reg _
      (fun d => visibleCommands_snd_eq d.VisibleCommands.1 d (visibleCommands_fst_elems d)) i
  · rw [addCommands_eq_groupedCommands,
      visibleCommandsAt_eq_self _ (groupedCommands_commands_ne_none calls) i]

/-- C15: after any sequence of `AddCommand` calls on a fresh registry the names
of `Categories()` are the distinct names of the calls in order of first
occurrence; a further `AddCommand` under a name already passed changes neither
the number nor the order of the categories, and under a new name it appends
exactly one category, holding just that command, after the existing categories,
which stay as they were. -/
theorem categories_first_insertion_order (calls : List (String × Command)) (n : String)
    (cmd : Command) :
    (addCommands newCommandCategories calls).Categories.map commandCategory.Name =
        firstOccurrences (calls.map Prod.fst) ∧
      (n ∈ calls.map Prod.fst →
        ((addCommands newCommandCategories calls).AddCommand n cmd).Categories.map
            commandCategory.Name =
          (addCommands newCommandCategories calls).Categories.map commandCategory.Name ∧
        ((addCommands newCommandCategories calls).AddCommand n cmd).Categories.length =
          (addCommands newCommandCategories calls).Categories.length) ∧
      (n ∉ calls.map Prod.fst →
        ((addCommands newCommandCategories calls).AddCommand n cmd).Categories =
          (addCommands newCommandCategories calls).Categories ++
            [{ name := n, commands := some [cmd] }]) := by
  have hnames : (addCommands newCommandCategories calls).map commandCategory.Name =
      firstOccurrences (calls.map Prod.fst) := by
    rw [addCommands_eq_groupedCommands, groupedCommands_names]
  refine ⟨by rw [categories_eq, hnames], ?_, ?_⟩
  · intro hn
    have hmem : n ∈ (addCommands newCommandCategories calls).map commandCategory.Name := by
      rw [hnames]; exact (mem_firstOccurrences _ _).mpr hn
    have h1 := addCommand_names_of_mem _ n cmd hmem
    rw [categories_eq, categories_eq]
    refine ⟨h1, ?_⟩
    have h2 := congrArg List.length h1
    simpa using h2
  · intro hn
    have hmem : n ∉ (addCommands newCommandCategories calls).map commandCategory.Name := by
      rw [hnames]; exact fun hm => hn ((mem_firstOccurrences _ _).mp hm)
    rw [categories_eq, categories_eq]
    exact addCommand_of_not_mem _ n cmd hmem

/-! ### The remaining claims on the flag registry -/

/-- C11: when `newFlagCategoriesFromFlags` completes, the category bound to a
name `n` has `Name() = n` and every flag stored in it reports
`GetCategory() = n`; so a stored flag has the empty category string exactly
when it sits in the category of the empty name, and the pre-seeded category of
the empty name holds exactly the Categorizable and Visible flags of the input
whose category string is empty. -/
theorem fromFlags_flags_report_category (fs : List Flag) (fc : defaultFlagCategories)
    (h : newFlagCategoriesFromFlags fs = some fc) (n : String)
    (cat : defaultVisibleFlagCategory) (hcat : fc.m n = some cat) :
    cat.Name = n ∧
      (∀ fl ∈ cat.flags, fl.category = some cat.Name) ∧
      (∀ fl ∈ cat.flags, (fl.category = some "" ↔ n = "")) ∧
      (∃ c0, fc.m "" = some c0 ∧
        ∀ fl, fl ∈ c0.flags ↔
          fl ∈ fs ∧ fl.categorizableAndVisible = true ∧ fl.category = some "") := by
  have hspec := fromFlags_eq_spec fs
  rw [h, Option.some.injEq] at hspec
  rw [hspec, fromFlagsSpec_eq_groupedFlags] at hcat ⊢
  have hc := groupedFlags_m_eq_some _ _ _ hcat
  have hstored : ∀ fl ∈ cat.flags, fl.category = some n := by
    intro fl hfl
    rw [hc] at hfl
    exact ((mem_flagsUnder_fromFlags fs n fl).mp hfl).2.2
  refine ⟨by rw [hc]; rfl, ?_, ?_, ?_⟩
  · intro fl hfl
    rw [hstored fl hfl, hc]
    rfl
  · intro fl hfl
    rw [hstored fl hfl]
    constructor
    · intro he; exact Option.some.inj he
    · intro he; rw [he]
  · exact ⟨_, groupedFlags_m_empty _, fun fl => mem_flagsUnder_fromFlags fs "" fl⟩

/-- C11 at `flagsWithEmptyCategory` and its category of the empty name. -/
theorem fromFlags_flags_report_category_witness :
    newFlagCategoriesFromFlags flagsWithEmptyCategory =
        some (fromFlagsSpec flagsWithEmptyCategory) ∧
      (fromFlagsSpec flagsWithEmptyCategory).m "" = some categoryEmptyName ∧
      (categoryEmptyName.Name = "" ∧
        (∀ fl ∈ categoryEmptyName.flags, fl.category = some categoryEmptyName.Name) ∧
        (∀ fl ∈ categoryEmptyName.flags, (fl.category = some "" ↔ "" = "")) ∧
        (∃ c0, (fromFlagsSpec flagsWithEmptyCategory).m "" = some c0 ∧
          ∀ fl, fl ∈ c0.flags ↔
            fl ∈ flagsWithEmptyCategory ∧ fl.categorizableAndVisible = true ∧
              fl.category = some "")) :=
  ⟨rfl, by decide,
    fromFlags_flags_report_category flagsWithEmptyCategory
      (fromFlagsSpec flagsWithEmptyCategory) rfl "" categoryEmptyName (by decide)⟩

/-- C12: in every registry reached from `newFlagCategories` by `AddFlag` calls
the name list starts with the empty name and holds it exactly once, and
`AddFlag("", fl)` leaves the name list unchanged, appends `fl` to the flags of
the category of the empty name and leaves every other map entry as it was. -/
theorem addFlags_empty_name_once (calls : List (String × Flag)) (fl : Flag) :
    (addFlags newFlagCategories calls).names.head? = some "" ∧
      (addFlags newFlagCategories calls).names.count "" = 1 ∧
      ((addFlags newFlagCategories calls).AddFlag "" fl).names =
        (addFlags newFlagCategories calls).names ∧
      (∃ c0, (addFlags newFlagCategories calls).m "" = some c0 ∧
        ((addFlags newFlagCategories calls).AddFlag "" fl).m "" =
          some { name := c0.name, flags := c0.flags ++ [fl] }) ∧
      (∀ k, k ≠ "" →
        ((addFlags newFlagCategories calls).AddFlag "" fl).m k =
          (addFlags newFlagCategories calls).m k) := by
  rw [addFlags_eq_groupedFlags]
  have hm := groupedFlags_m_empty calls
  refine ⟨?_, ?_, ?_, ?_, ?_⟩
  · rw [groupedFlags_names]; rfl
  · rw [groupedFlags_names, List.count_cons_self, List.count_eq_zero_of_not_mem]
    intro hmem
    have := (List.mem_filter.mp ((mem_firstOccurrences _ _).mp hmem)).2
    simp at this
  · simp only [defaultFlagCategories.AddFlag, hm]
  · refine ⟨_, hm, ?_⟩
    simp only [defaultFlagCategories.AddFlag, hm, mapSet, if_true]
  · intro k hk
    simp only [defaultFlagCategories.AddFlag, hm, mapSet, if_neg hk]

/-- C13, evaluated on the code: after `AddFlag("z", f1)`, `AddFlag("a", f2)`,
`VisibleCategories()` is not the nil result and returns the names "", "z", "a"
in insertion order; "a" is less than "z", so the names are not sorted. -/
theorem visibleCategories_insertion_order_not_sorted :
    ((addFlags newFlagCategories callsZA).VisibleCategories.map
        (fun cats => cats.map (Option.map defaultVisibleFlagCategory.Name))) =
        some [some "", some "z", some "a"] ∧
      stringLess "a" "z" = true ∧
      ∀ cats, (addFlags newFlagCategories callsZA).VisibleCategories = some cats →
        ¬ flagNamesNonDecreasing cats := by
  refine ⟨by decide, by decide, ?_⟩
  intro cats hc
  have hv : (addFlags newFlagCategories callsZA).VisibleCategories =
      some [some { name := "", flags := [] },
        some { name := "z", flags := [{ ptr := 1, visible := some true, category := some "z" }] },
        some { name := "a", flags := [{ ptr := 2, visible := some true, category := some "a" }] }] :=
    by decide
  rw [hv, Option.some.injEq] at hc
  rw [← hc]
  unfold flagNamesNonDecreasing
  decide

/-- C16: in every registry reached from `newFlagCategories` by `AddFlag` calls
the name list has no duplicates, a name is in the name list exactly when it is
a key of the map, the category bound to a key `n` has `Name() = n`, and every
entry of a non-nil result of `VisibleCategories()` is a category (no lookup
misses) whose name is the name at the same position of the name list. -/
theorem addFlags_names_map_agree (calls : List (String × Flag)) :
    (addFlags newFlagCategories calls).names.Nodup ∧
      (∀ n, n ∈ (addFlags newFlagCategories calls).names ↔
        ((addFlags newFlagCategories calls).m n).isSome = true) ∧
      (∀ n cat, (addFlags newFlagCategories calls).m n = some cat → cat.Name = n) ∧
      (∀ cats, (addFlags newFlagCategories calls).VisibleCategories = some cats →
        (∀ c ∈ cats, c.isSome = true) ∧
          cats.map (Option.map defaultVisibleFlagCategory.Name) =
            (addFlags newFlagCategories calls).names.map some) := by
  rw [addFlags_eq_groupedFlags]
  refine ⟨nodup_firstOccurrences _, fun n => (groupedFlags_m_isSome_iff calls n).symm, ?_, ?_⟩
  · intro n cat hcat
    rw [groupedFlags_m_eq_some _ _ _ hcat]
    rfl
  · intro cats hc
    by_cases hl : (groupedFlags calls).names.length = 1
    · simp [defaultFlagCategories.VisibleCategories, hl] at hc
    · simp only [defaultFlagCategories.VisibleCategories, if_neg hl, Option.some.injEq] at hc
      rw [groupedFlags_names_map] at hc
      rw [← hc]
      refine ⟨?_, ?_⟩
      · intro c hcmem
        obtain ⟨n, _, rfl⟩ := List.mem_map.mp hcmem
        rfl
      · simp [defaultVisibleFlagCategory.Name, Function.comp_def]

end Cli
